import Mathlib

/-!
Verification of the ingredient-matching and keyword-index subsystem of the
cooking-app repository (package recipe: ingredient_matcher.go and the
enhanced search service, plus the repository search it delegates to).

Modelling conventions:
* Go strings are modelled as lists of characters (the claims only exercise
  ASCII text, where Go byte length and indexing agree with character lists).
* Go float64 score arithmetic is modelled over the rationals; the constants
  0.2, 0.05, 0.3, 0.6, 0.7, 0.9 become the exact rationals they denote.
* Go maps are modelled as association lists; lookups are deterministic, and
  the one map-range scan whose order could matter (normalizeIngredientName
  over the synonyms table) scans entries in source-code order.
* strings.ToLower is modelled on its ASCII action, the only range the data
  and claims exercise.
-/

namespace CookingApp

/-- Character list standing for a Go string. -/
abbrev Str := List Char

/-- Shorthand turning a Lean string literal into its character list. -/
def w (s : String) : Str := s.data

/-- ASCII lowercasing of one character, the action of strings.ToLower on the
ASCII range. -/
def lowerChar (c : Char) : Char :=
  if c = 'A' then 'a' else if c = 'B' then 'b' else if c = 'C' then 'c'
  else if c = 'D' then 'd' else if c = 'E' then 'e' else if c = 'F' then 'f'
  else if c = 'G' then 'g' else if c = 'H' then 'h' else if c = 'I' then 'i'
  else if c = 'J' then 'j' else if c = 'K' then 'k' else if c = 'L' then 'l'
  else if c = 'M' then 'm' else if c = 'N' then 'n' else if c = 'O' then 'o'
  else if c = 'P' then 'p' else if c = 'Q' then 'q' else if c = 'R' then 'r'
  else if c = 'S' then 's' else if c = 'T' then 't' else if c = 'U' then 'u'
  else if c = 'V' then 'v' else if c = 'W' then 'w' else if c = 'X' then 'x'
  else if c = 'Y' then 'y' else if c = 'Z' then 'z' else c

/-- Model of strings.ToLower. -/
def lowerS (s : Str) : Str := s.map lowerChar

/-- Model of strings.TrimSpace: drop whitespace from both ends. -/
def trimS (s : Str) : Str :=
  ((s.dropWhile Char.isWhitespace).reverse.dropWhile Char.isWhitespace).reverse

/-- Lookup in an association list keyed by strings (Go map read m[k]). -/
def getAssoc {α : Type} : List (Str × α) → Str → Option α
  | [], _ => none
  | (k, v) :: rest, key => if k = key then some v else getAssoc rest key

/-- Update of an association list keyed by strings (Go map write m[k] = v). -/
def setAssoc {α : Type} : List (Str × α) → Str → α → List (Str × α)
  | [], key, v => [(key, v)]
  | (k, v') :: rest, key, v =>
    if k = key then (key, v) :: rest else (k, v') :: setAssoc rest key v

/-- The mutable lexicon owned by IngredientMatcher: synonym, alias and
substitute tables. -/
structure Lexicon where
  synonyms : List (Str × List Str)
  aliases : List (Str × Str)
  substitutes : List (Str × List Str)
deriving DecidableEq

/-- The synonymData table of initializeIngredientData, in source order. -/
def initSynonyms : List (Str × List Str) :=
  [ (w "egg", [w "eggs"])
  , (w "flour", [w "all-purpose flour", w "plain flour", w "white flour", w "wheat flour"])
  , (w "sugar", [w "white sugar", w "granulated sugar", w "table sugar"])
  , (w "butter", [w "unsalted butter", w "salted butter"])
  , (w "milk", [w "whole milk", w "cow milk", w "dairy milk"])
  , (w "onion", [w "yellow onion", w "white onion", w "red onion"])
  , (w "garlic", [w "garlic clove", w "garlic cloves"])
  , (w "tomato", [w "tomatoes", w "fresh tomato", w "ripe tomato"])
  , (w "potato", [w "potatoes", w "russet potato", w "red potato"])
  , (w "carrot", [w "carrots", w "baby carrot"])
  , (w "chicken", [w "chicken breast", w "chicken thigh", w "chicken meat"])
  , (w "beef", [w "ground beef", w "beef meat", w "steak"])
  , (w "rice", [w "white rice", w "brown rice", w "jasmine rice"])
  , (w "pasta", [w "spaghetti", w "penne", w "macaroni"])
  , (w "cheese", [w "cheddar", w "mozzarella", w "parmesan"])
  , (w "olive oil", [w "extra virgin olive oil", w "olive oil"])
  , (w "salt", [w "table salt", w "sea salt"])
  , (w "pepper", [w "black pepper", w "ground pepper"]) ]

/-- The aliasData table of initializeIngredientData, in source order. -/
def initAliases : List (Str × Str) :=
  [ (w "eggs", w "egg")
  , (w "tomatoes", w "tomato")
  , (w "potatoes", w "potato")
  , (w "carrots", w "carrot")
  , (w "onions", w "onion")
  , (w "garlic cloves", w "garlic")
  , (w "chicken breast", w "chicken")
  , (w "ground beef", w "beef")
  , (w "spaghetti", w "pasta")
  , (w "cheddar", w "cheese")
  , (w "mozzarella", w "cheese")
  , (w "parmesan", w "cheese")
  , (w "black pepper", w "pepper")
  , (w "sea salt", w "salt")
  , (w "table salt", w "salt") ]

/-- The substituteData table of initializeIngredientData, in source order. -/
def initSubstitutes : List (Str × List Str) :=
  [ (w "egg", [w "flax egg", w "chia egg", w "apple sauce", w "banana"])
  , (w "butter", [w "margarine", w "coconut oil", w "vegetable oil", w "apple sauce"])
  , (w "sugar", [w "honey", w "maple syrup", w "agave nectar", w "stevia"])
  , (w "milk", [w "almond milk", w "soy milk", w "oat milk", w "coconut milk"])
  , (w "flour", [w "almond flour", w "coconut flour", w "oat flour", w "rice flour"])
  , (w "sour cream", [w "yogurt", w "buttermilk", w "cream cheese"])
  , (w "mayonnaise", [w "greek yogurt", w "avocado", w "hummus"])
  , (w "rice", [w "quinoa", w "couscous", w "cauliflower rice"])
  , (w "pasta", [w "zucchini noodles", w "spaghetti squash", w "rice noodles"]) ]

/-- The lexicon as NewIngredientMatcher builds it. -/
def initLex : Lexicon :=
  { synonyms := initSynonyms, aliases := initAliases, substitutes := initSubstitutes }

/-- Scan of the synonyms table looking for a name among the synonym members,
as in the range loop of normalizeIngredientName. -/
def synScan : List (Str × List Str) → Str → Option Str
  | [], _ => none
  | (k, syns) :: rest, n => if n ∈ syns then some k else synScan rest n

/-- Model of normalizeIngredientName: lowercase and trim, resolve via the
alias table, else via synonym membership, else return the string itself. -/
def normalize (lex : Lexicon) (name : Str) : Str :=
  let n := lowerS (trimS name)
  match getAssoc lex.aliases n with
  | some canonical => canonical
  | none =>
    match synScan lex.synonyms n with
    | some canonical => canonical
    | none => n

/-- Model of isSynonym: either direction's synonym list contains the other
name. -/
def isSynonym (lex : Lexicon) (a b : Str) : Bool :=
  decide (b ∈ ((getAssoc lex.synonyms a).getD []) ∨ a ∈ ((getAssoc lex.synonyms b).getD []))

/-- Model of isSubstitute: either direction's substitute list contains the
other name. -/
def isSubstitute (lex : Lexicon) (a b : Str) : Bool :=
  decide (b ∈ ((getAssoc lex.substitutes a).getD []) ∨ a ∈ ((getAssoc lex.substitutes b).getD []))

/-- Model of AddSynonym: normalize both names, no-op on empties or when the
synonym is already recorded, else append it and register the alias. -/
def addSynonym (lex : Lexicon) (canonical synonym : Str) : Lexicon :=
  let c := normalize lex canonical
  let s := normalize lex synonym
  if c = [] ∨ s = [] then lex
  else
    let cur := (getAssoc lex.synonyms c).getD []
    if s ∈ cur then lex
    else { lex with
            synonyms := setAssoc lex.synonyms c (cur ++ [s])
            aliases := setAssoc lex.aliases s c }

/-- Model of AddSubstitute: normalize both names, no-op on empties or
duplicates, else append to the substitutes entry. -/
def addSubstitute (lex : Lexicon) (ingredient sub : Str) : Lexicon :=
  let i := normalize lex ingredient
  let s := normalize lex sub
  if i = [] ∨ s = [] then lex
  else
    let cur := (getAssoc lex.substitutes i).getD []
    if s ∈ cur then lex
    else { lex with substitutes := setAssoc lex.substitutes i (cur ++ [s]) }

/-- Rational division in a normalize-eagerly form that evaluates by kernel
reduction; equal to standard division by qdiv_eq. Division by zero yields 0,
matching the convention of the rationals. -/
def qdiv (a b : ℚ) : ℚ := Rat.divInt (a.num * (b.den : Int)) ((a.den : Int) * b.num)

/-- Rational subtraction in a normalize-eagerly form; equal to standard
subtraction by qsub_eq. -/
def qsub (a b : ℚ) : ℚ :=
  Rat.divInt (a.num * (b.den : Int) - b.num * (a.den : Int)) ((a.den : Int) * (b.den : Int))

/-- Rational multiplication in a normalize-eagerly form; equal to standard
multiplication by qmul_eq. -/
def qmul (a b : ℚ) : ℚ := Rat.divInt (a.num * b.num) ((a.den : Int) * (b.den : Int))

/-- Model of math.Max restricted to the rational scores this code computes;
equal to the lattice max by qmax_eq. -/
def qmax (a b : ℚ) : ℚ := if a < b then b else a

theorem qdiv_eq (a b : ℚ) : qdiv a b = a / b := by
  unfold qdiv
  rcases eq_or_ne b 0 with hb | hb
  · subst hb; simp [Rat.divInt_eq_div]
  · have hbn : (b.num : ℚ) ≠ 0 := by exact_mod_cast Rat.num_ne_zero.mpr hb
    have had : ((a.den : Int) : ℚ) ≠ 0 := by exact_mod_cast a.den_nz
    have hbd : ((b.den : Int) : ℚ) ≠ 0 := by exact_mod_cast b.den_nz
    push_cast at had hbd
    have ha : (a.num : ℚ) = a * (a.den : ℚ) := (div_eq_iff had).mp (Rat.num_div_den a)
    have hb2 : (b.num : ℚ) = b * (b.den : ℚ) := (div_eq_iff hbd).mp (Rat.num_div_den b)
    rw [Rat.divInt_eq_div]
    push_cast
    rw [div_eq_div_iff (mul_ne_zero had (hb2 ▸ hbn)) hb, ha, hb2]
    ring

theorem qsub_eq (a b : ℚ) : qsub a b = a - b := by
  unfold qsub
  have had : ((a.den : Int) : ℚ) ≠ 0 := by exact_mod_cast a.den_nz
  have hbd : ((b.den : Int) : ℚ) ≠ 0 := by exact_mod_cast b.den_nz
  push_cast at had hbd
  have ha : (a.num : ℚ) = a * (a.den : ℚ) := (div_eq_iff had).mp (Rat.num_div_den a)
  have hb2 : (b.num : ℚ) = b * (b.den : ℚ) := (div_eq_iff hbd).mp (Rat.num_div_den b)
  rw [Rat.divInt_eq_div]
  push_cast
  rw [div_eq_iff (mul_ne_zero had hbd), ha, hb2]
  ring

theorem qmul_eq (a b : ℚ) : qmul a b = a * b := by
  unfold qmul
  have had : ((a.den : Int) : ℚ) ≠ 0 := by exact_mod_cast a.den_nz
  have hbd : ((b.den : Int) : ℚ) ≠ 0 := by exact_mod_cast b.den_nz
  push_cast at had hbd
  have ha : (a.num : ℚ) = a * (a.den : ℚ) := (div_eq_iff had).mp (Rat.num_div_den a)
  have hb2 : (b.num : ℚ) = b * (b.den : ℚ) := (div_eq_iff hbd).mp (Rat.num_div_den b)
  rw [Rat.divInt_eq_div]
  push_cast
  rw [div_eq_iff (mul_ne_zero had hbd), ha, hb2]
  ring

theorem qmax_eq (a b : ℚ) : qmax a b = max a b := by
  unfold qmax
  rcases lt_or_ge a b with h | h
  · rw [if_pos h, max_eq_right h.le]
  · rw [if_neg (not_lt.mpr h), max_eq_left h]

/-- Prefix test on character lists (byte-level prefix in Go). -/
def isPrefixB : Str → Str → Bool
  | [], _ => true
  | _ :: _, [] => false
  | x :: xs, y :: ys => x = y && isPrefixB xs ys

/-- Model of strings.Contains: the needle occurs contiguously in the hay. -/
def containsB : Str → Str → Bool
  | [], needle => needle.isEmpty
  | c :: rest, needle => isPrefixB needle (c :: rest) || containsB rest needle

/-- Inner recursion of the Levenshtein recurrence: given the distance
function f of the tail of the first string, compute the distance of the
whole first string to the second string. -/
def levAux (x : Char) (f : Str → Nat) : Str → Nat
  | [] => f [] + 1
  | y :: b => min (f (y :: b) + 1) (min (levAux x f b + 1) (f b + (if x = y then 0 else 1)))

/-- Classic Levenshtein recurrence with unit insert/delete/substitute costs;
the Go levenshteinDistance fills the same recurrence bottom-up in a DP
matrix. -/
def levRec : Str → Str → Nat
  | [], b => b.length
  | x :: a, b => levAux x (levRec a) b

/-- Model of levenshteinDistance, which lowercases both arguments before
running the DP. -/
def levenshteinDistance (a b : Str) : Nat := levRec (lowerS a) (lowerS b)

/-- Model of similarityScore: exact match, then containment ratio, then
Levenshtein similarity, over the rationals. -/
def similarityScore (a0 b0 : Str) : ℚ :=
  let a := lowerS a0
  let b := lowerS b0
  if a = b then 1
  else if containsB a b || containsB b a then
    let p := if a.length > b.length then (b, a) else (a, b)
    qdiv (p.1.length : ℚ) (p.2.length : ℚ)
  else
    let maxLen : ℚ := qmax (a.length : ℚ) (b.length : ℚ)
    if maxLen = 0 then 1
    else qmax 0 (qsub 1 (qdiv (levenshteinDistance a b : ℚ) maxLen))

/-- Model of the MatchResult record. -/
structure MatchResult where
  ingredient : Str
  score : ℚ
  matchType : String
  original : Str
deriving DecidableEq

/-- The Go zero value of MatchResult, the initial bestMatch of
findBestMatch. -/
def zeroMatch : MatchResult := { ingredient := [], score := 0, matchType := "", original := [] }

/-- The loop of findBestMatch: walk the user ingredients carrying the best
substitute/fuzzy candidate, returning at once on an exact or synonym hit. -/
def findBestMatchGo (lex : Lexicon) (recipeIngredient : Str) :
    List Str → MatchResult → MatchResult
  | [], best => best
  | u :: rest, best =>
    let nu := normalize lex u
    if nu = recipeIngredient then
      { ingredient := recipeIngredient, score := 1, matchType := "exact", original := u }
    else if isSynonym lex nu recipeIngredient then
      { ingredient := recipeIngredient, score := mkRat 9 10, matchType := "synonym", original := u }
    else
      let best1 :=
        if isSubstitute lex nu recipeIngredient ∧ mkRat 7 10 > best.score then
          { ingredient := recipeIngredient, score := mkRat 7 10, matchType := "substitute", original := u }
        else best
      let sim := similarityScore nu recipeIngredient
      let best2 :=
        if sim > mkRat 3 5 ∧ sim > best1.score then
          { ingredient := recipeIngredient, score := sim, matchType := "fuzzy", original := u }
        else best1
      findBestMatchGo lex recipeIngredient rest best2

/-- Model of findBestMatch. -/
def findBestMatch (lex : Lexicon) (recipeIngredient : Str) (users : List Str) : MatchResult :=
  findBestMatchGo lex recipeIngredient users zeroMatch

/-- Recipe data reaching the matcher: id, name, description, and resolved
ingredient names. -/
structure Ingredient where
  name : Str
deriving DecidableEq

/-- One recipe ingredient reference with its resolved ingredient. -/
structure RecipeIngredient where
  ingredient : Ingredient
deriving DecidableEq

/-- Model of models.Recipe restricted to the fields the subsystem reads. -/
structure Recipe where
  id : Nat
  name : Str
  description : Str
  ingredients : List RecipeIngredient
deriving DecidableEq

/-- Model of RecipeMatchResult. -/
structure RecipeMatchResult where
  recipe : Recipe
  overallScore : ℚ
  matchDetails : List MatchResult
  missingCount : Int
  extraCount : Int
deriving DecidableEq

/-- Insertion into a Go map-as-set: keep the element once. -/
def insertSet (s : List Str) (x : Str) : List Str := if x ∈ s then s else s ++ [x]

/-- State threaded through the recipe-ingredient loop of
calculateRecipeMatch: match details, matched recipe-ingredient set, matched
user-original set. -/
structure CalcState where
  details : List MatchResult
  matchedRec : List Str
  matchedUser : List Str

/-- One iteration of the recipe-ingredient loop of calculateRecipeMatch. -/
def calcStep (lex : Lexicon) (users : List Str) (st : CalcState) (ri : RecipeIngredient) :
    CalcState :=
  let rn := normalize lex ri.ingredient.name
  let best := findBestMatch lex rn users
  if best.score > mkRat 3 10 then
    { details := st.details ++ [best]
      matchedRec := insertSet st.matchedRec rn
      matchedUser := insertSet st.matchedUser best.original }
  else st

/-- Model of calculateRecipeMatch. -/
def calculateRecipeMatch (lex : Lexicon) (recipe : Recipe) (originalUsers : List Str) :
    RecipeMatchResult :=
  let st := recipe.ingredients.foldl (calcStep lex originalUsers)
    { details := [], matchedRec := [], matchedUser := [] }
  let total := recipe.ingredients.length
  let matched := st.matchedRec.length
  let missing : Int := (total : Int) - (matched : Int)
  let extra : Int := ((originalUsers.filter (fun u => decide (u ∉ st.matchedUser))).length : Int)
  let base : ℚ := qdiv (matched : ℚ) (total : ℚ)
  let overall0 : ℚ := qsub (qsub base (qmul (missing : ℚ) (mkRat 1 5))) (qmul (extra : ℚ) (mkRat 1 20))
  let overall : ℚ := if overall0 < 0 then 0 else overall0
  { recipe := recipe, overallScore := overall, matchDetails := st.details
    missingCount := missing, extraCount := extra }

/-- The recipe store boundary: the in-memory catalog, in iteration order. -/
structure Store where
  recipes : List Recipe
deriving DecidableEq

/-- Model of the store GetByID capability. -/
def getByID (store : Store) (id : Nat) : Option Recipe :=
  store.recipes.find? (fun r => decide (r.id = id))

/-- First-occurrence deduplication driven by a seen set, as the Go map-based
dedup loops do. -/
def dedupGo (seen : List Str) : List Str → List Str
  | [] => []
  | x :: rest => if x ∈ seen then dedupGo seen rest else x :: dedupGo (x :: seen) rest

/-- First-occurrence deduplication of a string list. -/
def dedupFirst (l : List Str) : List Str := dedupGo [] l

/-- A default RecipeMatchResult used only for out-of-range indexing in the
sort model; the loops never index out of range. -/
def dummyMatch : RecipeMatchResult :=
  { recipe := { id := 0, name := [], description := [], ingredients := [] }
    overallScore := 0, matchDetails := [], missingCount := 0, extraCount := 0 }

/-- Swap of two positions of a list, leaving the list unchanged when either
index is out of range. -/
def swapAt2 (l : List RecipeMatchResult) (i j : Nat) : List RecipeMatchResult :=
  match l.get? i, l.get? j with
  | some a, some b => (l.set i b).set j a
  | _, _ => l

/-- The inner loop of the MatchIngredients exchange sort for a fixed outer
index i. -/
def sortInner (i : Nat) (acc : List RecipeMatchResult) (n : Nat) : List RecipeMatchResult :=
  (List.range' (i + 1) (n - (i + 1))).foldl
    (fun a j =>
      if (a.getD j dummyMatch).overallScore > (a.getD i dummyMatch).overallScore then
        swapAt2 a i j
      else a)
    acc

/-- The exchange sort of MatchIngredients (descending by overall score). -/
def swapSort (l : List RecipeMatchResult) : List RecipeMatchResult :=
  (List.range l.length).foldl (fun acc i => sortInner i acc l.length) l

/-- Model of MatchIngredients: normalize the user list into a set, score
every recipe that has ingredients, keep positive scores, sort descending and
truncate. -/
def matchIngredients (lex : Lexicon) (store : Store) (userIngredients : List Str)
    (maxResults : Int) : List RecipeMatchResult :=
  let normalizedUser := dedupFirst ((userIngredients.map (normalize lex)).filter
    (fun s => decide (s ≠ [])))
  if normalizedUser = [] then []
  else
    let results := ((store.recipes.filter (fun r => decide (r.ingredients ≠ []))).map
      (fun r => calculateRecipeMatch lex r userIngredients)).filter
      (fun m => decide (m.overallScore > 0))
    let sorted := swapSort results
    if maxResults > 0 ∧ (sorted.length : Int) > maxResults then
      sorted.take maxResults.toNat
    else sorted

/-- The keyword index of EnhancedSearchService: keyword to posting list of
recipe IDs. -/
abbrev Index := List (Str × List Nat)

/-- Posting-list lookup, empty when the keyword is absent. -/
def lookupD : Index → Str → List Nat
  | [], _ => []
  | (k, ids) :: rest, kw => if k = kw then ids else lookupD rest kw

/-- Filtering one posting list, as the purge loop of reindexRecipe does. -/
def removeId (ids : List Nat) (rid : Nat) : List Nat := ids.filter (fun x => decide (x ≠ rid))

/-- The purge phase of reindexRecipe: drop the recipe ID from every posting
list and delete keywords whose list becomes empty. -/
def purgeId : Index → Nat → Index
  | [], _ => []
  | (k, ids) :: rest, rid =>
    let ids' := removeId ids rid
    if ids' = [] then purgeId rest rid else (k, ids') :: purgeId rest rid

/-- Posting append, the Go statement index[w] = append(index[w], id). -/
def insertPosting : Index → Str → Nat → Index
  | [], kw, rid => [(kw, [rid])]
  | (k, ids) :: rest, kw, rid =>
    if k = kw then (k, ids ++ [rid]) :: rest else (k, ids) :: insertPosting rest kw rid

/-- Whitespace splitter modelling strings.Fields, with the current word
accumulated in reverse. -/
def fieldsGo (cur : Str) : Str → List Str
  | [] => if cur = [] then [] else [cur.reverse]
  | c :: rest =>
    if c.isWhitespace then
      if cur = [] then fieldsGo [] rest else cur.reverse :: fieldsGo [] rest
    else fieldsGo (c :: cur) rest

/-- Model of strings.Fields. -/
def fieldsS (s : Str) : List Str := fieldsGo [] s

/-- The punctuation set trimmed from tokens. -/
def isPunct (c : Char) : Bool := c = '.' || c = ',' || c = '!' || c = '?'

/-- Model of strings.Trim(word, punctuation): strip the leading and
trailing punctuation characters. -/
def trimPunct (s : Str) : Str :=
  ((s.dropWhile isPunct).reverse.dropWhile isPunct).reverse

/-- The keywords a recipe contributes to the index: tokens of the lowered
name-and-description text trimmed of punctuation, then the lowered
ingredient names, keeping length at least 2, deduplicated by first
occurrence against one shared seen set. -/
def recipeKeywords (r : Recipe) : List Str :=
  let text := lowerS (r.name ++ [' '] ++ r.description)
  let ws := (fieldsS text).map trimPunct
  let ings := r.ingredients.map (fun ri => lowerS ri.ingredient.name)
  dedupFirst ((ws ++ ings).filter (fun t => decide (2 ≤ t.length)))

/-- Model of reindexRecipe: silently drop requests for vanished recipes,
else purge the recipe's postings and re-add its current keywords. -/
def reindexRecipe (store : Store) (rid : Nat) (idx : Index) : Index :=
  match getByID store rid with
  | none => idx
  | some r => (recipeKeywords r).foldl (fun acc kw => insertPosting acc kw rid) (purgeId idx rid)

/-- Model of rebuildIndex: start from an empty map and post every recipe's
keywords. -/
def rebuildIndex (store : Store) : Index :=
  store.recipes.foldl
    (fun acc r => (recipeKeywords r).foldl (fun a kw => insertPosting a kw r.id) acc) []

/-- The indexCh capacity chosen in NewEnhancedSearchService. -/
def indexQueueCapacity : Nat := 50

/-- Model of NotifyRecipeChange over the pending-reindex channel viewed as a
bounded FIFO queue: non-blocking try-send, dropping the ID when full. -/
def notifyRecipeChange (queue : List Nat) (rid : Nat) : List Nat :=
  if queue.length < indexQueueCapacity then queue ++ [rid] else queue

/-- Stores whose recipes carry pairwise distinct IDs, the invariant the
map-backed Go repository guarantees. -/
def nodupIds (store : Store) : Prop := (store.recipes.map Recipe.id).Nodup

/-- Index states reachable from the empty initial index through the two
index-writing operations, against stores with well-formed IDs. -/
inductive ReachableIdx : Index → Prop
  | init : ReachableIdx []
  | reindex (store : Store) (rid : Nat) (idx : Index) :
      ReachableIdx idx → ReachableIdx (reindexRecipe store rid idx)
  | rebuild (store : Store) (hs : nodupIds store) (idx : Index) :
      ReachableIdx idx → ReachableIdx (rebuildIndex store)

/-- The well-formed-index property: present keywords have non-empty posting
lists and no posting list repeats a recipe ID. -/
def IndexWF (idx : Index) : Prop := ∀ p ∈ idx, p.2 ≠ [] ∧ p.2.Nodup

/-- Model of the repository SearchByName: case-insensitive substring search
over name and description, full catalog on an empty query. -/
def searchByName (store : Store) (query : Str) : List Recipe :=
  let q := trimS (lowerS query)
  if q = [] then store.recipes
  else store.recipes.filter
    (fun r => containsB (lowerS r.name) q || containsB (lowerS r.description) q)

/-- Model of the repository SearchByIngredients: recipes containing every
wanted (lowercased, trimmed, non-empty) ingredient name, full catalog when
nothing is wanted. -/
def searchByIngredients (store : Store) (names : List Str) : List Recipe :=
  if names = [] then store.recipes
  else
    let want := dedupFirst ((names.map (fun n => trimS (lowerS n))).filter
      (fun s => decide (s ≠ [])))
    if want = [] then store.recipes
    else store.recipes.filter
      (fun r => want.all (fun x => decide (x ∈ r.ingredients.map (fun ri => lowerS ri.ingredient.name))))

/-- Model of the SearchRequest record. -/
structure SearchRequest where
  query : Str
  ingredients : List Str
  maxResults : Int
  minMatchScore : ℚ
  useAdvanced : Bool
deriving DecidableEq

/-- Model of the SearchResponse record. -/
structure SearchResponse where
  recipes : List Recipe
  advancedMatches : List RecipeMatchResult
  totalCount : Nat
  query : Str
  searchType : String
deriving DecidableEq

/-- Truncation of a result list to maxResults, as the search modes do. -/
def capResults {α : Type} (l : List α) (maxResults : Int) : List α :=
  if (l.length : Int) > maxResults then l.take maxResults.toNat else l

/-- Model of ComprehensiveSearch: default maxResults to 50 when
non-positive, then dispatch to exactly one of the four search modes. -/
def comprehensiveSearch (lex : Lexicon) (store : Store) (req : SearchRequest) :
    SearchResponse :=
  let maxR : Int := if req.maxResults ≤ 0 then 50 else req.maxResults
  if req.useAdvanced ∧ req.ingredients ≠ [] then
    let ms0 := matchIngredients lex store req.ingredients maxR
    let ms :=
      if req.minMatchScore > 0 then
        ms0.filter (fun m => decide (m.overallScore ≥ req.minMatchScore))
      else ms0
    { recipes := ms.map RecipeMatchResult.recipe
      advancedMatches := ms
      totalCount := ms.length
      query := req.query
      searchType := "advanced_ingredient" }
  else if req.ingredients ≠ [] then
    let recipes := capResults (searchByIngredients store req.ingredients) maxR
    { recipes := recipes, advancedMatches := [], totalCount := recipes.length
      query := req.query, searchType := "basic_ingredient" }
  else if req.query ≠ [] then
    let recipes := capResults (searchByName store req.query) maxR
    { recipes := recipes, advancedMatches := [], totalCount := recipes.length
      query := req.query, searchType := "text" }
  else
    let recipes := capResults store.recipes maxR
    { recipes := recipes, advancedMatches := [], totalCount := recipes.length
      query := req.query, searchType := "all" }

/-! Helper lemmas about lowercasing and trimming. -/

theorem lowerChar_mem_uc : ∀ d ∈ w "ABCDEFGHIJKLMNOPQRSTUVWXYZ",
    lowerChar d ∈ w "abcdefghijklmnopqrstuvwxyz" := by decide

theorem lowerChar_of_not_uc (c : Char) (h : c ∉ w "ABCDEFGHIJKLMNOPQRSTUVWXYZ") :
    lowerChar c = c := by
  have h1 : ¬ (c = 'A') := fun hh => h (by rw [hh]; decide)
  have h2 : ¬ (c = 'B') := fun hh => h (by rw [hh]; decide)
  have h3 : ¬ (c = 'C') := fun hh => h (by rw [hh]; decide)
  have h4 : ¬ (c = 'D') := fun hh => h (by rw [hh]; decide)
  have h5 : ¬ (c = 'E') := fun hh => h (by rw [hh]; decide)
  have h6 : ¬ (c = 'F') := fun hh => h (by rw [hh]; decide)
  have h7 : ¬ (c = 'G') := fun hh => h (by rw [hh]; decide)
  have h8 : ¬ (c = 'H') := fun hh => h (by rw [hh]; decide)
  have h9 : ¬ (c = 'I') := fun hh => h (by rw [hh]; decide)
  have h10 : ¬ (c = 'J') := fun hh => h (by rw [hh]; decide)
  have h11 : ¬ (c = 'K') := fun hh => h (by rw [hh]; decide)
  have h12 : ¬ (c = 'L') := fun hh => h (by rw [hh]; decide)
  have h13 : ¬ (c = 'M') := fun hh => h (by rw [hh]; decide)
  have h14 : ¬ (c = 'N') := fun hh => h (by rw [hh]; decide)
  have h15 : ¬ (c = 'O') := fun hh => h (by rw [hh]; decide)
  have h16 : ¬ (c = 'P') := fun hh => h (by rw [hh]; decide)
  have h17 : ¬ (c = 'Q') := fun hh => h (by rw [hh]; decide)
  have h18 : ¬ (c = 'R') := fun hh => h (by rw [hh]; decide)
  have h19 : ¬ (c = 'S') := fun hh => h (by rw [hh]; decide)
  have h20 : ¬ (c = 'T') := fun hh => h (by rw [hh]; decide)
  have h21 : ¬ (c = 'U') := fun hh => h (by rw [hh]; decide)
  have h22 : ¬ (c = 'V') := fun hh => h (by rw [hh]; decide)
  have h23 : ¬ (c = 'W') := fun hh => h (by rw [hh]; decide)
  have h24 : ¬ (c = 'X') := fun hh => h (by rw [hh]; decide)
  have h25 : ¬ (c = 'Y') := fun hh => h (by rw [hh]; decide)
  have h26 : ¬ (c = 'Z') := fun hh => h (by rw [hh]; decide)
  unfold lowerChar
  rw [if_neg h1, if_neg h2, if_neg h3, if_neg h4, if_neg h5, if_neg h6, if_neg h7, if_neg h8, if_neg h9, if_neg h10, if_neg h11, if_neg h12, if_neg h13, if_neg h14, if_neg h15, if_neg h16, if_neg h17, if_neg h18, if_neg h19, if_neg h20, if_neg h21, if_neg h22, if_neg h23, if_neg h24, if_neg h25, if_neg h26]

theorem lowerChar_eq2 (c : Char) :
    lowerChar c = c ∨
      (c ∈ w "ABCDEFGHIJKLMNOPQRSTUVWXYZ" ∧ lowerChar c ∈ w "abcdefghijklmnopqrstuvwxyz") := by
  by_cases h : c ∈ w "ABCDEFGHIJKLMNOPQRSTUVWXYZ"
  · exact Or.inr ⟨h, lowerChar_mem_uc c h⟩
  · exact Or.inl (lowerChar_of_not_uc c h)

theorem lowerChar_fix : ∀ d ∈ w "abcdefghijklmnopqrstuvwxyz", lowerChar d = d := by decide

theorem ucNotWs : ∀ d ∈ w "ABCDEFGHIJKLMNOPQRSTUVWXYZ", d.isWhitespace = false := by decide

theorem lcNotWs : ∀ d ∈ w "abcdefghijklmnopqrstuvwxyz", d.isWhitespace = false := by decide

theorem lowerChar_idem (c : Char) : lowerChar (lowerChar c) = lowerChar c := by
  rcases lowerChar_eq2 c with h | ⟨_, h2⟩
  · rw [h]; exact h
  · exact lowerChar_fix _ h2

theorem lowerChar_ws (c : Char) : (lowerChar c).isWhitespace = c.isWhitespace := by
  rcases lowerChar_eq2 c with h | ⟨h1, h2⟩
  · rw [h]
  · rw [ucNotWs _ h1, lcNotWs _ h2]

theorem lowerS_idem (s : Str) : lowerS (lowerS s) = lowerS s := by
  unfold lowerS
  rw [List.map_map]
  exact List.map_congr_left fun c _ => lowerChar_idem c

theorem dropWhile_lower_comm (l : Str) :
    List.dropWhile Char.isWhitespace (l.map lowerChar) =
      (List.dropWhile Char.isWhitespace l).map lowerChar := by
  induction l with
  | nil => simp
  | cons a t ih =>
    simp only [List.map_cons, List.dropWhile_cons, lowerChar_ws a]
    rcases h : a.isWhitespace with _ | _ <;> simp [h, ih]

theorem trimS_lowerS_comm (s : Str) : trimS (lowerS s) = lowerS (trimS s) := by
  unfold trimS lowerS
  rw [dropWhile_lower_comm, ← List.map_reverse, dropWhile_lower_comm, ← List.map_reverse]

theorem dropWhile_dropWhile (p : Char → Bool) (l : Str) :
    List.dropWhile p (List.dropWhile p l) = List.dropWhile p l := by
  induction l with
  | nil => simp
  | cons a t ih =>
    simp only [List.dropWhile_cons]
    rcases h : p a with _ | _
    · simp [List.dropWhile_cons, h]
    · simpa [h] using ih

theorem dropWhile_eq_self_of_head (p : Char → Bool) (l : Str)
    (h : ∀ x, l.head? = some x → p x = false) : List.dropWhile p l = l := by
  cases l with
  | nil => rfl
  | cons a t => simp [List.dropWhile_cons, h a rfl]

theorem getLast?_dropWhile (p : Char → Bool) (l : Str) (hne : List.dropWhile p l ≠ []) :
    (List.dropWhile p l).getLast? = l.getLast? := by
  obtain ⟨t, ht⟩ := List.dropWhile_suffix p (l := l)
  conv_rhs => rw [← ht]
  rw [List.getLast?_append]
  rcases h : (List.dropWhile p l).getLast? with _ | x
  · exact absurd (List.getLast?_eq_none_iff.mp h) hne
  · rfl

theorem trimS_idem (s : Str) : trimS (trimS s) = trimS s := by
  unfold trimS
  set p := Char.isWhitespace
  set u := List.dropWhile p s with hu
  set v := List.dropWhile p u.reverse with hv
  have hdv : List.dropWhile p v.reverse = v.reverse := by
    apply dropWhile_eq_self_of_head
    intro x hx
    rw [List.head?_reverse] at hx
    rcases hne : v with _ | _
    · rw [hne] at hx; simp at hx
    · rw [hv] at hx
      rw [getLast?_dropWhile p u.reverse (by rw [← hv, hne]; simp)] at hx
      rw [List.getLast?_reverse] at hx
      have := List.head?_dropWhile_not p s
      rw [← hu] at this
      rcases hh : u.head? with _ | y
      · rw [hh] at hx; simp at hx
      · rw [hh] at hx this
        simp at hx this
        rwa [hx] at this
  have h3 : List.dropWhile p v = v := by rw [hv, dropWhile_dropWhile]
  rw [hdv, List.reverse_reverse, h3]

theorem canon_idem (s : Str) : lowerS (trimS (lowerS (trimS s))) = lowerS (trimS s) := by
  rw [trimS_lowerS_comm, lowerS_idem, trimS_idem]

/-! Idempotence of normalization over the initial lexicon, and the finite
table facts behind it. -/

theorem getAssoc_mem {α : Type} (l : List (Str × α)) (k : Str) (v : α)
    (h : getAssoc l k = some v) : (k, v) ∈ l := by
  induction l with
  | nil => simp [getAssoc] at h
  | cons p rest ih =>
    rcases p with ⟨k', v'⟩
    rw [getAssoc] at h
    split at h
    · subst_vars; simp at h; simp [h]
    · exact List.mem_cons_of_mem _ (ih h)

theorem synScan_mem (l : List (Str × List Str)) (n k : Str) (h : synScan l n = some k) :
    ∃ syns, (k, syns) ∈ l ∧ n ∈ syns := by
  induction l with
  | nil => simp [synScan] at h
  | cons p rest ih =>
    rcases p with ⟨k', syns'⟩
    rw [synScan] at h
    split at h
    · simp at h
      subst h
      exact ⟨syns', List.mem_cons_self _ _, by assumption⟩
    · obtain ⟨syns, hm, hn⟩ := ih h
      exact ⟨syns, List.mem_cons_of_mem _ hm, hn⟩

theorem initAliases_fix : ∀ p ∈ initLex.aliases, normalize initLex p.2 = p.2 := by decide

theorem initSynKeys_fix : ∀ p ∈ initLex.synonyms, normalize initLex p.1 = p.1 := by decide

theorem initSynMembers_fix :
    ∀ p ∈ initLex.synonyms, ∀ m ∈ p.2, normalize initLex m = m → m = p.1 := by decide

theorem normalize_initLex_idem (s : Str) :
    normalize initLex (normalize initLex s) = normalize initLex s := by
  rcases ha : getAssoc initLex.aliases (lowerS (trimS s)) with _ | c
  · rcases hs : synScan initLex.synonyms (lowerS (trimS s)) with _ | k
    · have h1 : normalize initLex s = lowerS (trimS s) := by
        simp only [normalize, ha, hs]
      rw [h1]
      simp only [normalize, canon_idem, ha, hs]
    · have h1 : normalize initLex s = k := by
        simp only [normalize, ha, hs]
      rw [h1]
      obtain ⟨syns, hmem, _⟩ := synScan_mem _ _ _ hs
      exact initSynKeys_fix (k, syns) hmem
  · have h1 : normalize initLex s = c := by
      simp only [normalize, ha]
    rw [h1]
    exact initAliases_fix _ (getAssoc_mem _ _ _ ha)

/-! Claim C5: normalization idempotence. The claim quantifies over every
lexicon state reachable through AddSynonym/AddSubstitute; alias chains built
by two AddSynonym calls refute that, while the initial state satisfies it. -/

/-- A lexicon reachable from the initial tables by two AddSynonym calls,
building the alias chain b to a to c. -/
def lexChain : Lexicon := addSynonym (addSynonym initLex (w "a") (w "b")) (w "c") (w "a")

/-- C5 counterexample: in the reachable state lexChain, normalizing "b"
yields "a", but normalizing again yields "c", so normalization is not
idempotent over all reachable lexicon states. -/
theorem c5_counterexample :
    normalize lexChain (normalize lexChain (w "b")) ≠ normalize lexChain (w "b") := by decide

/-- C5 (amended): for the lexicon in its initial built-in state,
normalization is idempotent on every string. -/
theorem c5_normalize_idem_initial (s : Str) :
    normalize initLex (normalize initLex s) = normalize initLex s :=
  normalize_initLex_idem s

/-! Claim C2: exact-match supremacy. Again the reachable-state
quantification fails (a synonym early return can precede the exact
candidate after two AddSynonym calls), while the initial state satisfies
it. -/

theorem isSynonym_initLex_false (x y : Str) (hx : normalize initLex x = x)
    (hy : normalize initLex y = y) (hxy : x ≠ y) : isSynonym initLex x y = false := by
  unfold isSynonym
  rw [decide_eq_false_iff_not]
  rintro (h | h)
  · rcases hg : getAssoc initLex.synonyms x with _ | l
    · rw [hg] at h; simp at h
    · rw [hg] at h; simp at h
      exact hxy (initSynMembers_fix (x, l) (getAssoc_mem _ _ _ hg) y h hy).symm
  · rcases hg : getAssoc initLex.synonyms y with _ | l
    · rw [hg] at h; simp at h
    · rw [hg] at h; simp at h
      exact hxy (initSynMembers_fix (y, l) (getAssoc_mem _ _ _ hg) x h hx)

theorem findBestMatchGo_exact (r : Str) (hr : normalize initLex r = r) :
    ∀ (users : List Str) (best : MatchResult),
      (∃ u ∈ users, normalize initLex u = r) →
      (findBestMatchGo initLex r users best).score = 1 ∧
        (findBestMatchGo initLex r users best).matchType = "exact" := by
  intro users
  induction users with
  | nil => rintro best ⟨u, hu, _⟩; simp at hu
  | cons v rest ih =>
    rintro best ⟨u, hu, hn⟩
    by_cases hv : normalize initLex v = r
    · simp [findBestMatchGo, if_pos hv]
    · have hsyn : isSynonym initLex (normalize initLex v) r = false :=
        isSynonym_initLex_false _ _ (normalize_initLex_idem v) hr hv
      have hurest : u ∈ rest := by
        rcases List.mem_cons.mp hu with h | h
        · exact absurd (h ▸ hn) hv
        · exact h
      simp only [findBestMatchGo, if_neg hv, hsyn, Bool.false_eq_true, if_false]
      exact ih _ ⟨u, hurest, hn⟩

/-- C2 counterexample: in the reachable state lexChain, the recipe
ingredient "b" normalizes to "a", the user list contains "b" (which
normalizes to the recipe ingredient), yet findBestMatch returns the synonym
result for the earlier user entry "c" with score 9/10, not an exact match
with score 1. -/
theorem c2_counterexample :
    normalize lexChain (w "b") = w "a" ∧
      (w "b") ∈ [w "c", w "b"] ∧
      (findBestMatch lexChain (normalize lexChain (w "b")) [w "c", w "b"]).score ≠ 1 ∧
      (findBestMatch lexChain (normalize lexChain (w "b")) [w "c", w "b"]).matchType =
        "synonym" := by decide

/-- C2 (amended): for the lexicon in its initial built-in state, if some
user ingredient normalizes to the same string as the (normalized) recipe
ingredient, findBestMatch returns score exactly 1 and match type exact,
regardless of the other user ingredients present or their order. -/
theorem c2_exact_match_supremacy_initial (recipeRaw u : Str) (users : List Str)
    (hu : u ∈ users) (hn : normalize initLex u = normalize initLex recipeRaw) :
    (findBestMatch initLex (normalize initLex recipeRaw) users).score = 1 ∧
      (findBestMatch initLex (normalize initLex recipeRaw) users).matchType = "exact" :=
  findBestMatchGo_exact _ (normalize_initLex_idem recipeRaw) users zeroMatch ⟨u, hu, hn⟩

/-- C2 witness: the amended theorem applied to a concrete recipe ingredient
and user list. -/
theorem c2_witness :
    (findBestMatch initLex (normalize initLex (w "butter")) [w "egg", w "butter"]).score = 1 ∧
      (findBestMatch initLex (normalize initLex (w "butter")) [w "egg", w "butter"]).matchType =
        "exact" :=
  c2_exact_match_supremacy_initial (w "butter") (w "butter") [w "egg", w "butter"]
    (by decide) (by decide)

/-! Claim C1: the worked MatchIngredients example. -/

/-- The recipe of the C1 scenario: three ingredients normalizing to egg,
butter and salt. -/
def recScenario : Recipe :=
  { id := 1, name := w "Omelet", description := w ""
    ingredients := [⟨⟨w "egg"⟩⟩, ⟨⟨w "butter"⟩⟩, ⟨⟨w "salt"⟩⟩] }

/-- The single-recipe catalog of the C1 scenario. -/
def storeScenario : Store := ⟨[recScenario]⟩

set_option maxRecDepth 10000 in
/-- C1: MatchIngredients(["egg","buttr"], 10) on the initial lexicon against
the egg-butter-salt recipe: "egg" matches exact with score 1, "buttr"
matches "butter" fuzzily with Levenshtein distance 1 over max length 6
(similarity 5/6, above the 3/5 threshold), "salt" is unmatched, giving
missing 1, extra 0 and overall score 2/3 - 1/5 = 7/15. -/
theorem c1_match_ingredients_example :
    levenshteinDistance (w "buttr") (w "butter") = 1 ∧
      similarityScore (w "buttr") (w "butter") = mkRat 5 6 ∧
      matchIngredients initLex storeScenario [w "egg", w "buttr"] 10 =
        [{ recipe := recScenario
           overallScore := mkRat 7 15
           matchDetails :=
             [ { ingredient := w "egg", score := 1, matchType := "exact", original := w "egg" }
             , { ingredient := w "butter", score := mkRat 5 6, matchType := "fuzzy"
                 original := w "buttr" } ]
           missingCount := 1
           extraCount := 0 }] := by decide

/-! Claim C7: reindexing a vanished recipe is silently dropped. -/

/-- C7: when GetByID reports not-found, reindexRecipe returns the index
exactly as it was, signalling no error. -/
theorem c7_reindex_missing_noop (store : Store) (rid : Nat) (idx : Index)
    (h : getByID store rid = none) : reindexRecipe store rid idx = idx := by
  simp [reindexRecipe, h]

/-- C7 witness: the theorem applied to an empty store and a nonempty
index. -/
theorem c7_witness : reindexRecipe ⟨[]⟩ 5 [(w "tomato", [1])] = [(w "tomato", [1])] :=
  c7_reindex_missing_noop ⟨[]⟩ 5 [(w "tomato", [1])] (by decide)

/-! Claim C8: NotifyRecipeChange never blocks and drops on full. -/

theorem notify_len_le (q : List Nat) (rid : Nat) (h : q.length ≤ indexQueueCapacity) :
    (notifyRecipeChange q rid).length ≤ indexQueueCapacity := by
  unfold notifyRecipeChange
  split
  · simpa using by omega
  · exact h

theorem foldl_notify_len_le (ids : List Nat) :
    ∀ q : List Nat, q.length ≤ indexQueueCapacity →
      (ids.foldl notifyRecipeChange q).length ≤ indexQueueCapacity := by
  induction ids with
  | nil => intro q h; simpa using h
  | cons i rest ih =>
    intro q h
    simpa using ih _ (notify_len_le q i h)

/-- C8: the notification enqueue is a total function on queue states: when
the bounded queue (capacity 50) is full the call leaves it unchanged and the
notification is dropped, otherwise the ID is appended at the tail; and any
number of notifications starting from the empty queue never exceeds the
capacity. -/
theorem c8_notify_nonblocking :
    (∀ (q : List Nat) (rid : Nat),
        (q.length < indexQueueCapacity → notifyRecipeChange q rid = q ++ [rid]) ∧
        (indexQueueCapacity ≤ q.length → notifyRecipeChange q rid = q)) ∧
      ∀ ids : List Nat, (ids.foldl notifyRecipeChange []).length ≤ indexQueueCapacity := by
  refine ⟨fun q rid => ⟨fun h => ?_, fun h => ?_⟩, fun ids => ?_⟩
  · rw [notifyRecipeChange, if_pos h]
  · rw [notifyRecipeChange, if_neg (by omega)]
  · exact foldl_notify_len_le ids [] (by simp)

/-- C8 witness: the theorem applied to an empty queue, a full queue, and a
concrete notification burst. -/
theorem c8_witness :
    notifyRecipeChange [] 7 = [] ++ [7] ∧
      notifyRecipeChange (List.replicate 50 0) 7 = List.replicate 50 0 ∧
      (([1, 2, 3, 4].foldl notifyRecipeChange []).length ≤ indexQueueCapacity) :=
  ⟨(c8_notify_nonblocking.1 [] 7).1 (by decide),
   (c8_notify_nonblocking.1 (List.replicate 50 0) 7).2 (by decide),
   c8_notify_nonblocking.2 [1, 2, 3, 4]⟩

/-! Claim C6: similarity symmetry, over all three branches. -/

theorem levRec_nil_right (a : Str) : levRec a [] = a.length := by
  induction a with
  | nil => rfl
  | cons x a ih => simp [levRec, levAux, ih]

theorem levRec_symm (a : Str) : ∀ b, levRec a b = levRec b a := by
  induction a with
  | nil => intro b; simp [levRec, levRec_nil_right]
  | cons x a iha =>
    intro b
    induction b with
    | nil => simp only [levRec, levAux, levRec_nil_right, List.length_cons]
    | cons y b ihb =>
      have f1 : levAux x (levRec a) b = levRec (x :: a) b := by rw [levRec]
      have f2 : levAux y (levRec b) a = levRec (y :: b) a := by rw [levRec]
      have hc : ((if x = y then 0 else 1) : Nat) = (if y = x then 0 else 1) := by
        simp [eq_comm]
      simp only [levRec, levAux]
      rw [f1, f2, hc, ← iha (y :: b), ← ihb, ← iha b]
      omega

theorem ratio_min_max (u v : Str) :
    qdiv (((if u.length > v.length then (v, u) else (u, v)).1.length : Nat) : ℚ)
      (((if u.length > v.length then (v, u) else (u, v)).2.length : Nat) : ℚ) =
    qdiv ((min u.length v.length : Nat) : ℚ) ((max u.length v.length : Nat) : ℚ) := by
  split_ifs with h
  · rw [show min u.length v.length = (v, u).1.length from by simp; omega,
      show max u.length v.length = (v, u).2.length from by simp; omega]
  · rw [show min u.length v.length = (u, v).1.length from by simp; omega,
      show max u.length v.length = (u, v).2.length from by simp; omega]

/-- C6: the similarity score is symmetric in its two arguments, across the
equality, containment and Levenshtein branches. -/
theorem c6_similarity_symm (a0 b0 : Str) : similarityScore a0 b0 = similarityScore b0 a0 := by
  simp only [similarityScore]
  by_cases h1 : lowerS a0 = lowerS b0
  · rw [if_pos h1, if_pos h1.symm]
  · rw [if_neg h1, if_neg (Ne.symm h1)]
    by_cases h2 : (containsB (lowerS a0) (lowerS b0) || containsB (lowerS b0) (lowerS a0)) = true
    · have h2' : (containsB (lowerS b0) (lowerS a0) || containsB (lowerS a0) (lowerS b0)) =
          true := by rw [Bool.or_comm]; exact h2
      conv_lhs => rw [if_pos h2]
      conv_rhs => rw [if_pos h2']
      rw [ratio_min_max (lowerS a0) (lowerS b0), ratio_min_max (lowerS b0) (lowerS a0),
        Nat.min_comm, Nat.max_comm]
    · have h2' : ¬ (containsB (lowerS b0) (lowerS a0) || containsB (lowerS a0) (lowerS b0)) =
          true := by rw [Bool.or_comm]; exact h2
      conv_lhs => rw [if_neg h2]
      conv_rhs => rw [if_neg h2']
      have hq : qmax ((lowerS a0).length : ℚ) ((lowerS b0).length : ℚ) =
          qmax ((lowerS b0).length : ℚ) ((lowerS a0).length : ℚ) := by
        rw [qmax_eq, qmax_eq, max_comm]
      have hlev : levenshteinDistance (lowerS a0) (lowerS b0) =
          levenshteinDistance (lowerS b0) (lowerS a0) := by
        unfold levenshteinDistance; exact levRec_symm _ _
      rw [hq, hlev]

/-! Claim C4: the extra-ingredient count. The loop of calculateRecipeMatch
counts positions of the caller's list, so a duplicated unmatched string
counts twice; the claim's word distinct is refuted, and the multiplicity
statement is proved. -/

/-- A one-ingredient recipe used by the C4 scenario. -/
def recEggOnly : Recipe :=
  { id := 2, name := w "Boiled Egg", description := w "", ingredients := [⟨⟨w "egg"⟩⟩] }

/-- The single-recipe catalog of the C4 scenario. -/
def storeEggOnly : Store := ⟨[recEggOnly]⟩

theorem insertSet_mem (s : List Str) (y x : Str) : x ∈ insertSet s y ↔ x ∈ s ∨ x = y := by
  unfold insertSet
  split_ifs with h
  · constructor
    · exact Or.inl
    · rintro (hx | rfl)
      · exact hx
      · exact h
  · simp

theorem calc_user_inv (lex : Lexicon) (users : List Str) :
    ∀ (ings : List RecipeIngredient) (st : CalcState),
      (∀ x, x ∈ st.matchedUser ↔ x ∈ st.details.map MatchResult.original) →
      ∀ x, x ∈ (ings.foldl (calcStep lex users) st).matchedUser ↔
        x ∈ (ings.foldl (calcStep lex users) st).details.map MatchResult.original := by
  intro ings
  induction ings with
  | nil => intro st h; simpa using h
  | cons ri rest ih =>
    intro st h
    simp only [List.foldl_cons]
    apply ih
    intro x
    simp only [calcStep]
    split
    · simp only [List.map_append, List.mem_append, List.map_cons, List.map_nil,
        List.mem_singleton, insertSet_mem, h x]
    · exact h x

theorem calc_extra_count (lex : Lexicon) (r : Recipe) (users : List Str) :
    (calculateRecipeMatch lex r users).extraCount =
      ((users.filter (fun u =>
        decide (u ∉ (calculateRecipeMatch lex r users).matchDetails.map
          MatchResult.original))).length : Int) := by
  have hinv := calc_user_inv lex users r.ingredients
    { details := [], matchedRec := [], matchedUser := [] } (by simp)
  unfold calculateRecipeMatch
  simp only []
  congr 1
  apply congrArg List.length
  apply List.filter_congr
  intro u _
  rw [decide_eq_decide]
  exact not_congr (hinv u)

theorem swapAt2_subset (l : List RecipeMatchResult) (i j : Nat) (x : RecipeMatchResult)
    (h : x ∈ swapAt2 l i j) : x ∈ l := by
  unfold swapAt2 at h
  rcases hgi : l.get? i with _ | a <;> rw [hgi] at h
  · exact h
  · rcases hgj : l.get? j with _ | b <;> rw [hgj] at h
    · exact h
    · rcases List.mem_or_eq_of_mem_set h with h2 | rfl
      · rcases List.mem_or_eq_of_mem_set h2 with h3 | rfl
        · exact h3
        · exact List.get?_mem hgj
      · exact List.get?_mem hgi

theorem foldlSwap_subset (js : List Nat) (i : Nat) :
    ∀ (acc : List RecipeMatchResult) (x : RecipeMatchResult),
      x ∈ js.foldl
        (fun a j =>
          if (a.getD j dummyMatch).overallScore > (a.getD i dummyMatch).overallScore then
            swapAt2 a i j
          else a) acc → x ∈ acc := by
  induction js with
  | nil => intro acc x h; simpa using h
  | cons j rest ih =>
    intro acc x h
    simp only [List.foldl_cons] at h
    have h2 := ih _ x h
    split at h2
    · exact swapAt2_subset _ _ _ _ h2
    · exact h2

theorem sortInner_subset (i n : Nat) (acc : List RecipeMatchResult) (x : RecipeMatchResult)
    (h : x ∈ sortInner i acc n) : x ∈ acc := by
  unfold sortInner at h
  exact foldlSwap_subset _ _ _ _ h

theorem foldlSort_subset (is : List Nat) (n : Nat) :
    ∀ (acc : List RecipeMatchResult) (x : RecipeMatchResult),
      x ∈ is.foldl (fun acc i => sortInner i acc n) acc → x ∈ acc := by
  induction is with
  | nil => intro acc x h; simpa using h
  | cons i rest ih =>
    intro acc x h
    simp only [List.foldl_cons] at h
    exact sortInner_subset _ _ _ _ (ih _ _ h)

theorem swapSort_subset (l : List RecipeMatchResult) (x : RecipeMatchResult)
    (h : x ∈ swapSort l) : x ∈ l := by
  unfold swapSort at h
  exact foldlSort_subset _ _ _ _ h

theorem matchIngredients_mem (lex : Lexicon) (store : Store) (users : List Str)
    (maxR : Int) (res : RecipeMatchResult) (h : res ∈ matchIngredients lex store users maxR) :
    ∃ r ∈ store.recipes, res = calculateRecipeMatch lex r users := by
  simp only [matchIngredients] at h
  split at h
  · simp at h
  · have h2 : res ∈ swapSort (((store.recipes.filter
        (fun r => decide (r.ingredients ≠ []))).map
        (fun r => calculateRecipeMatch lex r users)).filter
        (fun m => decide (m.overallScore > 0))) := by
      split at h
      · exact List.mem_of_mem_take h
      · exact h
    have h3 := swapSort_subset _ _ h2
    rw [List.mem_filter] at h3
    obtain ⟨r, hr, hres⟩ := List.mem_map.mp h3.1
    exact ⟨r, List.filter_subset' _ hr, hres.symm⟩

/-- C4 counterexample: with user list ["egg","zzz","zzz"] against a
one-ingredient egg recipe, the per-recipe match produced by MatchIngredients
has extra_count 2, while the number of distinct unmatched original strings
is 1. -/
theorem c4_counterexample :
    calculateRecipeMatch initLex recEggOnly [w "egg", w "zzz", w "zzz"] ∈
        matchIngredients initLex storeEggOnly [w "egg", w "zzz", w "zzz"] 10 ∧
      (calculateRecipeMatch initLex recEggOnly [w "egg", w "zzz", w "zzz"]).extraCount = 2 ∧
      (([w "egg", w "zzz", w "zzz"].filter (fun u =>
        decide (u ∉ (calculateRecipeMatch initLex recEggOnly
          [w "egg", w "zzz", w "zzz"]).matchDetails.map
            MatchResult.original))).dedup).length = 1 := by decide

/-- C4 (amended): in every per-recipe match computed by MatchIngredients,
extra_count equals the number of entries of the caller's user ingredient
list, counted with multiplicity, that are not recorded as the original of
any accepted match for that recipe. -/
theorem c4_extra_count_multiplicity (lex : Lexicon) (store : Store) (users : List Str)
    (maxR : Int) (res : RecipeMatchResult) (h : res ∈ matchIngredients lex store users maxR) :
    res.extraCount =
      ((users.filter (fun u =>
        decide (u ∉ res.matchDetails.map MatchResult.original))).length : Int) := by
  obtain ⟨r, _, rfl⟩ := matchIngredients_mem lex store users maxR res h
  exact calc_extra_count lex r users

/-- C4 witness: the amended theorem applied to the concrete egg-only
scenario. -/
theorem c4_witness :
    (calculateRecipeMatch initLex recEggOnly [w "egg", w "zzz", w "zzz"]).extraCount =
      (([w "egg", w "zzz", w "zzz"].filter (fun u =>
        decide (u ∉ (calculateRecipeMatch initLex recEggOnly
          [w "egg", w "zzz", w "zzz"]).matchDetails.map
            MatchResult.original))).length : Int) :=
  c4_extra_count_multiplicity initLex storeEggOnly [w "egg", w "zzz", w "zzz"] 10 _ (by decide)

/-! Claim C3: reindexing fully replaces a recipe's postings. The keyword
index lookups are characterized through the purge and re-add phases; the
Nodup hypothesis on the association-list keys is inherent to the Go map the
list models. -/

theorem lookupD_eq_nil_of_not_mem (idx : Index) (kw : Str)
    (h : kw ∉ idx.map Prod.fst) : lookupD idx kw = [] := by
  induction idx with
  | nil => rfl
  | cons p rest ih =>
    rcases p with ⟨k, ids⟩
    simp only [List.map_cons, List.mem_cons] at h
    push_neg at h
    rw [lookupD, if_neg (fun hk : k = kw => h.1 hk.symm)]
    exact ih h.2

theorem lookupD_purge (idx : Index) (rid : Nat) (kw : Str)
    (hk : (idx.map Prod.fst).Nodup) :
    lookupD (purgeId idx rid) kw = removeId (lookupD idx kw) rid := by
  induction idx with
  | nil => rfl
  | cons p rest ih =>
    rcases p with ⟨k, ids⟩
    simp only [List.map_cons, List.nodup_cons] at hk
    rw [purgeId]
    by_cases hkk : k = kw
    · subst hkk
      rw [lookupD, if_pos rfl]
      split_ifs with h
      · rw [ih hk.2, lookupD_eq_nil_of_not_mem rest k hk.1]
        simp only [removeId, List.filter_nil]
        exact h.symm
      · rw [lookupD, if_pos rfl]
    · rw [lookupD, if_neg hkk]
      split_ifs with h
      · exact ih hk.2
      · rw [lookupD, if_neg hkk]
        exact ih hk.2

theorem lookupD_insert (idx : Index) (kw kw' : Str) (rid : Nat) :
    lookupD (insertPosting idx kw rid) kw' =
      if kw' = kw then lookupD idx kw ++ [rid] else lookupD idx kw' := by
  induction idx with
  | nil =>
    by_cases h : kw' = kw
    · simp [insertPosting, lookupD, h]
    · simp [insertPosting, lookupD, h, Ne.symm h]
  | cons p rest ih =>
    rcases p with ⟨k, ids⟩
    rw [insertPosting]
    by_cases hk : k = kw
    · subst hk
      rw [if_pos rfl]
      by_cases h : kw' = k
      · simp [lookupD, h]
      · simp [lookupD, h, Ne.symm h]
    · rw [if_neg hk]
      by_cases h : k = kw'
      · subst h
        simp [lookupD, hk]
      · rw [lookupD, if_neg h, ih]
        by_cases h2 : kw' = kw
        · rw [if_pos h2, if_pos h2, lookupD, if_neg hk]
        · rw [if_neg h2, if_neg h2, lookupD, if_neg h]

theorem lookupD_foldl_insert (ks : List Str) (rid : Nat) :
    ks.Nodup → ∀ (idx : Index) (kw : Str),
      lookupD (ks.foldl (fun acc kw' => insertPosting acc kw' rid) idx) kw =
        if kw ∈ ks then lookupD idx kw ++ [rid] else lookupD idx kw := by
  induction ks with
  | nil => intro _ idx kw; simp
  | cons k rest ih =>
    intro hnd idx kw
    simp only [List.nodup_cons] at hnd
    simp only [List.foldl_cons]
    rw [ih hnd.2]
    by_cases hkr : kw ∈ rest
    · have hkk : kw ≠ k := fun he => hnd.1 (he ▸ hkr)
      rw [if_pos hkr, if_pos (List.mem_cons_of_mem _ hkr), lookupD_insert, if_neg hkk]
    · rw [if_neg hkr]
      by_cases hkk : kw = k
      · rw [lookupD_insert, if_pos hkk, if_pos (hkk ▸ List.mem_cons_self _ _), hkk]
      · rw [lookupD_insert, if_neg hkk,
          if_neg (by simp only [List.mem_cons]; push_neg; exact ⟨hkk, hkr⟩)]

theorem dedupGo_nodup (l : List Str) :
    ∀ seen : List Str, (dedupGo seen l).Nodup ∧ ∀ x ∈ dedupGo seen l, x ∉ seen := by
  induction l with
  | nil => intro seen; simp [dedupGo]
  | cons x rest ih =>
    intro seen
    rw [dedupGo]
    split
    · exact ⟨(ih seen).1, (ih seen).2⟩
    · refine ⟨List.nodup_cons.mpr ⟨fun hx => ?_, (ih (x :: seen)).1⟩, ?_⟩
      · exact (ih (x :: seen)).2 x hx (List.mem_cons_self _ _)
      · intro y hy hyseen
        rcases List.mem_cons.mp hy with rfl | hy2
        · exact absurd hyseen (by assumption)
        · exact (ih (x :: seen)).2 y hy2 (List.mem_cons_of_mem _ hyseen)

theorem dedupFirst_nodup (l : List Str) : (dedupFirst l).Nodup := (dedupGo_nodup l []).1

theorem recipeKeywords_nodup (r : Recipe) : (recipeKeywords r).Nodup := by
  unfold recipeKeywords
  exact dedupFirst_nodup _

theorem removeId_self_not_mem (l : List Nat) (rid : Nat) : rid ∉ removeId l rid := by
  simp [removeId]

theorem removeId_append_self (l : List Nat) (rid : Nat) :
    removeId (l ++ [rid]) rid = removeId l rid := by
  simp [removeId]

theorem removeId_idem (l : List Nat) (rid : Nat) :
    removeId (removeId l rid) rid = removeId l rid := by
  simp only [removeId, List.filter_filter]
  apply List.filter_congr
  intro x _
  simp [Bool.and_self]

/-- The lookup characterization of one reindex pass. -/
theorem lookupD_reindex (store : Store) (rid : Nat) (r : Recipe) (idx : Index)
    (hr : getByID store rid = some r) (hk : (idx.map Prod.fst).Nodup) (kw : Str) :
    lookupD (reindexRecipe store rid idx) kw =
      if kw ∈ recipeKeywords r then removeId (lookupD idx kw) rid ++ [rid]
      else removeId (lookupD idx kw) rid := by
  unfold reindexRecipe
  rw [hr]
  rw [lookupD_foldl_insert _ _ (recipeKeywords_nodup r), lookupD_purge _ _ _ hk]

theorem purge_keys_sublist (idx : Index) (rid : Nat) :
    ((purgeId idx rid).map Prod.fst).Sublist (idx.map Prod.fst) := by
  induction idx with
  | nil => simp [purgeId]
  | cons p rest ih =>
    rcases p with ⟨k, ids⟩
    rw [purgeId]
    split
    · exact ih.trans (List.sublist_cons_self _ _)
    · simpa using ih

theorem insert_keys (idx : Index) (kw : Str) (rid : Nat) :
    ((insertPosting idx kw rid).map Prod.fst) = idx.map Prod.fst ∨
      ((insertPosting idx kw rid).map Prod.fst) = idx.map Prod.fst ++ [kw] ∧
        kw ∉ idx.map Prod.fst := by
  induction idx with
  | nil => right; simp [insertPosting]
  | cons p rest ih =>
    rcases p with ⟨k, ids⟩
    rw [insertPosting]
    split
    · left; simp_all
    · rcases ih with h | ⟨h, hnm⟩
      · left; simp_all
      · right
        constructor
        · simp_all
        · simp only [List.map_cons, List.mem_cons]
          push_neg
          refine ⟨fun he => ?_, hnm⟩
          subst he
          simp_all

theorem insert_keys_nodup (idx : Index) (kw : Str) (rid : Nat)
    (h : (idx.map Prod.fst).Nodup) : ((insertPosting idx kw rid).map Prod.fst).Nodup := by
  rcases insert_keys idx kw rid with he | ⟨he, hnm⟩
  · rw [he]; exact h
  · rw [he]
    simp [List.nodup_append, h, hnm]

theorem foldl_insert_keys_nodup (ks : List Str) (rid : Nat) :
    ∀ idx : Index, (idx.map Prod.fst).Nodup →
      (((ks.foldl (fun acc kw' => insertPosting acc kw' rid) idx)).map Prod.fst).Nodup := by
  induction ks with
  | nil => intro idx h; simpa using h
  | cons k rest ih =>
    intro idx h
    simp only [List.foldl_cons]
    exact ih _ (insert_keys_nodup _ _ _ h)

theorem reindex_keys_nodup (store : Store) (rid : Nat) (idx : Index)
    (hk : (idx.map Prod.fst).Nodup) :
    ((reindexRecipe store rid idx).map Prod.fst).Nodup := by
  unfold reindexRecipe
  rcases hr : getByID store rid with _ | r
  · exact hk
  · exact foldl_insert_keys_nodup _ _ _ ((purge_keys_sublist idx rid).nodup hk)

/-- The Tomato Soup recipe of the C3 scenario, before the rename. -/
def recTomato : Recipe := { id := 7, name := w "Tomato Soup", description := w "", ingredients := [] }

/-- The same recipe after the store renamed it to Potato Soup. -/
def recPotato : Recipe := { id := 7, name := w "Potato Soup", description := w "", ingredients := [] }

/-- The store before the rename. -/
def storeTomato : Store := ⟨[recTomato]⟩

/-- The store after the rename. -/
def storePotato : Store := ⟨[recPotato]⟩

/-- C3: after ReindexRecipe for a stored recipe, the recipe ID appears in
exactly the posting lists of the keywords of the recipe's current text, and
in no other posting list; reindexing the unchanged recipe twice gives the
same lookups as reindexing once; and in the concrete rename scenario,
"tomato" loses the ID and "potato" gains it. -/
theorem c3_reindex_replaces_postings (store : Store) (rid : Nat) (r : Recipe) (idx : Index)
    (hr : getByID store rid = some r) (hk : (idx.map Prod.fst).Nodup) :
    (∀ kw, rid ∈ lookupD (reindexRecipe store rid idx) kw ↔ kw ∈ recipeKeywords r) ∧
      (∀ kw, lookupD (reindexRecipe store rid (reindexRecipe store rid idx)) kw =
        lookupD (reindexRecipe store rid idx) kw) ∧
      (7 ∈ lookupD (reindexRecipe storeTomato 7 []) (w "tomato") ∧
        7 ∉ lookupD (reindexRecipe storePotato 7 (reindexRecipe storeTomato 7 [])) (w "tomato") ∧
        7 ∈ lookupD (reindexRecipe storePotato 7 (reindexRecipe storeTomato 7 [])) (w "potato")) := by
  refine ⟨fun kw => ?_, fun kw => ?_, by decide⟩
  · rw [lookupD_reindex store rid r idx hr hk kw]
    split_ifs with hin
    · simp [hin]
    · simp only [hin, iff_false]
      exact removeId_self_not_mem _ _
  · rw [lookupD_reindex store rid r _ hr (reindex_keys_nodup store rid idx hk) kw,
      lookupD_reindex store rid r idx hr hk kw]
    split
    · rw [removeId_append_self, removeId_idem]
    · rw [removeId_idem]

/-- C3 witness: the theorem applied to the concrete Tomato Soup store and
the empty index. -/
theorem c3_witness :
    7 ∈ lookupD (reindexRecipe storeTomato 7 []) (w "tomato") :=
  ((c3_reindex_replaces_postings storeTomato 7 recTomato [] (by decide)
    (by decide)).1 (w "tomato")).mpr (by decide)

/-! Claim C10: the implicit well-formed-index invariant over every state
reachable through reindexRecipe and rebuildIndex. -/

theorem purge_mem (idx : Index) (rid : Nat) :
    ∀ p ∈ purgeId idx rid, p.2 ≠ [] ∧ ∃ q ∈ idx, p = (q.1, removeId q.2 rid) := by
  induction idx with
  | nil => simp [purgeId]
  | cons q rest ih =>
    rcases q with ⟨k, ids⟩
    intro p hp
    rw [purgeId] at hp
    split_ifs at hp with h
    · obtain ⟨hne, q, hq, he⟩ := ih p hp
      exact ⟨hne, q, List.mem_cons_of_mem _ hq, he⟩
    · rcases List.mem_cons.mp hp with rfl | hp2
      · exact ⟨h, (k, ids), List.mem_cons_self _ _, rfl⟩
      · obtain ⟨hne, q, hq, he⟩ := ih p hp2
        exact ⟨hne, q, List.mem_cons_of_mem _ hq, he⟩

theorem insertPosting_mem (idx : Index) (kw : Str) (rid : Nat) :
    ∀ p ∈ insertPosting idx kw rid,
      p ∈ idx ∨ ∃ ids, p = (kw, ids ++ [rid]) ∧ ((kw, ids) ∈ idx ∨ ids = []) := by
  induction idx with
  | nil =>
    intro p hp
    simp only [insertPosting, List.mem_singleton] at hp
    exact Or.inr ⟨[], by simpa using hp, Or.inr rfl⟩
  | cons q rest ih =>
    rcases q with ⟨k, ids0⟩
    intro p hp
    rw [insertPosting] at hp
    split_ifs at hp with h
    · subst h
      rcases List.mem_cons.mp hp with rfl | hp2
      · exact Or.inr ⟨ids0, rfl, Or.inl (List.mem_cons_self _ _)⟩
      · exact Or.inl (List.mem_cons_of_mem _ hp2)
    · rcases List.mem_cons.mp hp with rfl | hp2
      · exact Or.inl (List.mem_cons_self _ _)
      · rcases ih p hp2 with h2 | ⟨ids, he, hm⟩
        · exact Or.inl (List.mem_cons_of_mem _ h2)
        · rcases hm with hm | hm
          · exact Or.inr ⟨ids, he, Or.inl (List.mem_cons_of_mem _ hm)⟩
          · exact Or.inr ⟨ids, he, Or.inr hm⟩

/-- Preservation of well-formedness through the re-add loop: S is the set of
recipe IDs allowed in the incoming posting lists, rid the ID being posted,
and every list already holding rid belongs to a key not scheduled again. -/
theorem foldl_insert_wf (rid : Nat) (S : Nat → Prop) :
    ∀ ks : List Str, ks.Nodup → ∀ idx : Index,
      (∀ p ∈ idx, p.2 ≠ [] ∧ p.2.Nodup ∧ (∀ x ∈ p.2, S x ∨ x = rid) ∧
        (rid ∈ p.2 → p.1 ∉ ks)) →
      ∀ p ∈ ks.foldl (fun acc kw => insertPosting acc kw rid) idx,
        p.2 ≠ [] ∧ p.2.Nodup ∧ (∀ x ∈ p.2, S x ∨ x = rid) := by
  intro ks
  induction ks with
  | nil =>
    intro _ idx hidx p hp
    simp only [List.foldl_nil] at hp
    exact ⟨(hidx p hp).1, (hidx p hp).2.1, (hidx p hp).2.2.1⟩
  | cons k rest ih =>
    intro hnd idx hidx
    simp only [List.nodup_cons] at hnd
    simp only [List.foldl_cons]
    apply ih hnd.2
    intro p hp
    rcases insertPosting_mem idx k rid p hp with hold | ⟨ids, rfl, hm⟩
    · obtain ⟨h1, h2, h3, h4⟩ := hidx p hold
      refine ⟨h1, h2, h3, fun hrid => ?_⟩
      have := h4 hrid
      simp only [List.mem_cons] at this
      push_neg at this
      exact this.2
    · have hids : ids.Nodup ∧ (∀ x ∈ ids, S x ∨ x = rid) ∧ rid ∉ ids := by
        rcases hm with hm | rfl
        · obtain ⟨h1, h2, h3, h4⟩ := hidx (k, ids) hm
          refine ⟨h2, h3, fun hrid => ?_⟩
          exact (h4 hrid) (List.mem_cons_self _ _)
        · simp
      refine ⟨by simp, ?_, ?_, fun _ => hnd.1⟩
      · rw [List.nodup_append]
        refine ⟨hids.1, List.nodup_singleton _, fun x hx hxr => ?_⟩
        rw [List.mem_singleton] at hxr
        exact hids.2.2 (hxr ▸ hx)
      · intro x hx
        rcases List.mem_append.mp hx with hx | hx
        · exact hids.2.1 x hx
        · exact Or.inr (List.mem_singleton.mp hx)

theorem reindex_wf (store : Store) (rid : Nat) (idx : Index) (h : IndexWF idx) :
    IndexWF (reindexRecipe store rid idx) := by
  unfold reindexRecipe
  rcases hr : getByID store rid with _ | r
  · exact h
  · intro p hp
    have := foldl_insert_wf rid (fun x => x ≠ rid) (recipeKeywords r)
      (recipeKeywords_nodup r) (purgeId idx rid) ?_ p hp
    · exact ⟨this.1, this.2.1⟩
    · intro q hq
      obtain ⟨hne, q0, hq0, rfl⟩ := purge_mem idx rid q hq
      refine ⟨hne, List.Nodup.filter _ (h q0 hq0).2, ?_, ?_⟩
      · intro x hx
        left
        simp only [removeId, List.mem_filter, decide_eq_true_eq] at hx
        exact hx.2
      · intro hrid
        exact absurd hrid (removeId_self_not_mem _ _)

theorem rebuild_fold_wf :
    ∀ (recs : List Recipe) (acc : Index) (done : List Nat),
      (recs.map Recipe.id).Nodup →
      (∀ r ∈ recs, r.id ∉ done) →
      (∀ p ∈ acc, p.2 ≠ [] ∧ p.2.Nodup ∧ ∀ x ∈ p.2, x ∈ done) →
      ∀ p ∈ recs.foldl
        (fun acc r => (recipeKeywords r).foldl (fun a kw => insertPosting a kw r.id) acc) acc,
        p.2 ≠ [] ∧ p.2.Nodup ∧ ∀ x ∈ p.2, x ∈ done ++ recs.map Recipe.id := by
  intro recs
  induction recs with
  | nil =>
    intro acc done _ _ hacc p hp
    simp only [List.foldl_nil] at hp
    exact ⟨(hacc p hp).1, (hacc p hp).2.1, fun x hx => by
      simpa using (hacc p hp).2.2 x hx⟩
  | cons r rest ih =>
    intro acc done hnd hdone hacc
    simp only [List.foldl_cons]
    simp only [List.map_cons, List.nodup_cons] at hnd
    intro p hp
    have hstep : ∀ q ∈ (recipeKeywords r).foldl
        (fun a kw => insertPosting a kw r.id) acc,
        q.2 ≠ [] ∧ q.2.Nodup ∧ ∀ x ∈ q.2, x ∈ done ++ [r.id] := by
      intro q hq
      have := foldl_insert_wf r.id (fun x => x ∈ done) (recipeKeywords r)
        (recipeKeywords_nodup r) acc ?_ q hq
      · refine ⟨this.1, this.2.1, fun x hx => ?_⟩
        rcases this.2.2 x hx with h2 | h2
        · exact List.mem_append.mpr (Or.inl h2)
        · exact List.mem_append.mpr (Or.inr (by simp [h2]))
      · intro q0 hq0
        obtain ⟨h1, h2, h3⟩ := hacc q0 hq0
        refine ⟨h1, h2, fun x hx => Or.inl (h3 x hx), fun hrid => ?_⟩
        exact absurd (h3 _ hrid) (hdone r (List.mem_cons_self _ _))
    have := ih _ (done ++ [r.id]) hnd.2
      (fun r2 hr2 => by
        simp only [List.mem_append, List.mem_singleton]
        push_neg
        exact ⟨hdone r2 (List.mem_cons_of_mem _ hr2),
          fun he => hnd.1 (he ▸ List.mem_map_of_mem Recipe.id hr2)⟩)
      hstep p hp
    refine ⟨this.1, this.2.1, fun x hx => ?_⟩
    have h3 := this.2.2 x hx
    simp only [List.mem_append, List.mem_singleton, List.map_cons, List.mem_cons] at h3 ⊢
    tauto

theorem rebuild_wf (store : Store) (hs : nodupIds store) : IndexWF (rebuildIndex store) := by
  unfold rebuildIndex
  intro p hp
  have := rebuild_fold_wf store.recipes [] [] hs (by simp) (by simp) p hp
  exact ⟨this.1, this.2.1⟩

/-- C10: every index state reachable from the empty index through
rebuildIndex and reindexRecipe maps each present keyword to a non-empty
posting list with no duplicated recipe ID. -/
theorem c10_index_wf (idx : Index) (h : ReachableIdx idx) : IndexWF idx := by
  induction h with
  | init => intro p hp; simp at hp
  | reindex store rid idx _ ih => exact reindex_wf store rid idx ih
  | rebuild store hs idx _ _ => exact rebuild_wf store hs

/-- C10 witness: the invariant instantiated on a concrete reachable state
obtained by one reindex step from the empty index. -/
theorem c10_witness : IndexWF (reindexRecipe storeTomato 7 []) :=
  c10_index_wf _ (ReachableIdx.reindex storeTomato 7 [] ReachableIdx.init)

/-! Claim C9: ComprehensiveSearch mode precedence, the 50 default, and the
basic-ingredient mode contract. -/

theorem capResults_subset {α : Type} (l : List α) (m : Int) :
    ∀ x ∈ capResults l m, x ∈ l := by
  unfold capResults
  split_ifs
  · exact fun x hx => List.mem_of_mem_take hx
  · exact fun x hx => hx

theorem capResults_length {α : Type} (l : List α) (m : Int) (hm : 0 < m) :
    ((capResults l m).length : Int) ≤ m := by
  unfold capResults
  split_ifs with h
  · rw [List.length_take]
    have h2 : (m.toNat : Int) = m := Int.toNat_of_nonneg hm.le
    omega
  · omega

theorem searchByIngredients_egg_flour (store : Store) (r : Recipe)
    (hr : r ∈ searchByIngredients store [w "egg", w "flour"]) :
    w "egg" ∈ r.ingredients.map (fun ri => lowerS ri.ingredient.name) ∧
      w "flour" ∈ r.ingredients.map (fun ri => lowerS ri.ingredient.name) := by
  have hwant : dedupFirst ((([w "egg", w "flour"]).map (fun n => trimS (lowerS n))).filter
      (fun s => decide (s ≠ []))) = [w "egg", w "flour"] := by decide
  rw [searchByIngredients, if_neg (by decide), hwant, if_neg (by decide)] at hr
  have h2 := (List.mem_filter.mp hr).2
  rw [List.all_eq_true] at h2
  exact ⟨of_decide_eq_true (h2 (w "egg") (by decide)),
    of_decide_eq_true (h2 (w "flour") (by decide))⟩

/-- C9: ComprehensiveSearch selects exactly one mode by the stated
precedence; with non-positive max_results defaulting to 50; and for a
request with ingredients ["egg","flour"] and use_advanced false the
response is the basic-ingredient search truncated to the effective
max_results, containing only recipes whose lowered ingredient-name sets
include both "egg" and "flour". -/
theorem c9_comprehensive_search_modes (lex : Lexicon) (store : Store) (req : SearchRequest) :
    ((comprehensiveSearch lex store req).searchType =
      (if req.useAdvanced ∧ req.ingredients ≠ [] then "advanced_ingredient"
       else if req.ingredients ≠ [] then "basic_ingredient"
       else if req.query ≠ [] then "text"
       else "all")) ∧
    (req.useAdvanced = false → req.ingredients = [w "egg", w "flour"] →
      (comprehensiveSearch lex store req).searchType = "basic_ingredient" ∧
      (comprehensiveSearch lex store req).recipes =
        capResults (searchByIngredients store [w "egg", w "flour"])
          (if req.maxResults ≤ 0 then 50 else req.maxResults) ∧
      ((comprehensiveSearch lex store req).recipes.length : Int) ≤
        (if req.maxResults ≤ 0 then 50 else req.maxResults) ∧
      ∀ r ∈ (comprehensiveSearch lex store req).recipes,
        w "egg" ∈ r.ingredients.map (fun ri => lowerS ri.ingredient.name) ∧
        w "flour" ∈ r.ingredients.map (fun ri => lowerS ri.ingredient.name)) := by
  constructor
  · simp only [comprehensiveSearch]
    split_ifs <;> rfl
  · intro h1 h2
    have hm : (0 : Int) < if req.maxResults ≤ 0 then 50 else req.maxResults := by
      split_ifs <;> omega
    have hresp : comprehensiveSearch lex store req =
        { recipes := capResults (searchByIngredients store [w "egg", w "flour"])
            (if req.maxResults ≤ 0 then 50 else req.maxResults)
          advancedMatches := []
          totalCount := (capResults (searchByIngredients store [w "egg", w "flour"])
            (if req.maxResults ≤ 0 then 50 else req.maxResults)).length
          query := req.query
          searchType := "basic_ingredient" } := by
      simp only [comprehensiveSearch]
      rw [if_neg (by simp [h1]), if_pos (by simp [h2]), h2]
    rw [hresp]
    refine ⟨rfl, rfl, capResults_length _ _ hm, fun r hr => ?_⟩
    exact searchByIngredients_egg_flour store r (capResults_subset _ _ r hr)

/-- The egg-and-flour recipe of the C9 witness. -/
def recPancake : Recipe :=
  { id := 3, name := w "Pancakes", description := w ""
    ingredients := [⟨⟨w "Egg"⟩⟩, ⟨⟨w "flour"⟩⟩] }

/-- The catalog of the C9 witness. -/
def storePancake : Store := ⟨[recPancake]⟩

/-- The basic-ingredient request of the C9 witness. -/
def reqBasic : SearchRequest :=
  { query := [], ingredients := [w "egg", w "flour"], maxResults := 0
    minMatchScore := 0, useAdvanced := false }

/-- C9 witness: the theorem applied to a concrete store and request. -/
theorem c9_witness :
    (comprehensiveSearch initLex storePancake reqBasic).searchType = "basic_ingredient" ∧
      (comprehensiveSearch initLex storePancake reqBasic).recipes =
        capResults (searchByIngredients storePancake [w "egg", w "flour"])
          (if reqBasic.maxResults ≤ 0 then 50 else reqBasic.maxResults) :=
  ⟨((c9_comprehensive_search_modes initLex storePancake reqBasic).2 rfl rfl).1,
   ((c9_comprehensive_search_modes initLex storePancake reqBasic).2 rfl rfl).2.1⟩

end CookingApp
